import Mathlib

/-!
Verification of the MicroKlavier research code: the interrupt
producer buffer (`research/micropython/#producer-consumer/buffer.py`,
duplicated in `research/micropython/midi-in-out/app.py`) and the MIDI
echo loop of `research/micropython/midi-in-out/main.py`.

Byte regions (`memoryview`s over a `bytearray`) are modelled as
`List Nat`; indexed assignment and indexed read fail (raise
`IndexError`) outside the bounds of the region, hence return `Option`.
-/

namespace MicroKlavier

/-- Read `mv[i]` from a memoryview: fails when `i` is out of bounds. -/
def mvget (mv : List Nat) (i : Nat) : Option Nat :=
  mv.get? i

/-- Write `mv[i] = v` into a memoryview: fails when `i` is out of bounds. -/
def mvset (mv : List Nat) (i : Nat) (v : Nat) : Option (List Nat) :=
  if i < mv.length then some (mv.set i v) else none

/-- Body of the copy loops of `buffer.py`, recursing on the number
`k = n - i` of iterations still to run: as long as `k` is positive,
perform `dst[off + i] = src[i]` and advance to `i + 1`. -/
def copyCount (src : List Nat) (dst : List Nat) (off i : Nat) : Nat → Option (List Nat)
  | 0 => some dst
  | k + 1 =>
    match mvget src i with
    | none => none
    | some v =>
      match mvset dst (off + i) v with
      | none => none
      | some dst2 => copyCount src dst2 off (i + 1) k

/-- Embeds the copy loops of `buffer.py`:
`while i < n: dst[off + i] = src[i]; i += 1`, starting at `i = 0`.
The loop runs exactly `n` iterations (or fails on an out-of-bounds
index). `commit` runs it with `off = waiting_old` (source `memory_isr`,
destination `memory_wait`); the `data` property runs it with `off = 0`
(source `memory_wait`, destination `memory_data`). -/
def copyLoop (src dst : List Nat) (off n : Nat) : Option (List Nat) :=
  copyCount src dst off 0 n

/-- State of `InterruptProducerBuffer`: the three memory regions carved
out of one `bytearray`, the overrun flag and the waiting byte count. -/
structure InterruptProducerBuffer where
  memory_isr : List Nat
  memory_wait : List Nat
  memory_data : List Nat
  overrun : Bool
  waiting : Nat
deriving DecidableEq

/-- Embeds `InterruptProducerBuffer.__init__(isr_buffer, latency)`:
allocates one zeroed block of `(latency * 2 + 1) * isr_buffer` bytes and
slices it at `(0, isr_buffer, isr_buffer * (latency + 1))`.
The Python constructor contains no validation and no failure path for
non-negative arguments, so the embedding is total. -/
def InterruptProducerBuffer.init (isr_buffer latency : Nat) : InterruptProducerBuffer :=
  let size := (latency * 2 + 1) * isr_buffer
  let memory_all := List.replicate size 0
  { memory_isr := (memory_all.take isr_buffer)
    memory_wait := ((memory_all.drop isr_buffer).take (isr_buffer * (latency + 1) - isr_buffer))
    memory_data := memory_all.drop (isr_buffer * (latency + 1))
    overrun := false
    waiting := 0 }

/-- Embeds `InterruptProducerBuffer.commit(length)`: if
`waiting + length` exceeds `len(memory_wait)`, set the overrun flag and
discard the burst; otherwise copy `memory_isr[0..length)` to
`memory_wait[waiting..waiting+length)` and advance `waiting`. -/
def InterruptProducerBuffer.commit (b : InterruptProducerBuffer) (length : Nat) :
    Option InterruptProducerBuffer :=
  let waiting_old := b.waiting
  let waiting_new := waiting_old + length
  if waiting_new > b.memory_wait.length then
    some { b with overrun := true }
  else
    match copyLoop b.memory_isr b.memory_wait waiting_old length with
    | none => none
    | some w => some { b with memory_wait := w, waiting := waiting_new }

/-- Embeds the `InterruptProducerBuffer.data` property: copy
`memory_wait[0..waiting)` into `memory_data`, reset `waiting` to 0,
clear the overrun flag, and return the data region together with the
number of bytes read. -/
def InterruptProducerBuffer.data (b : InterruptProducerBuffer) :
    Option (InterruptProducerBuffer × List Nat × Nat) :=
  match copyLoop b.memory_wait b.memory_data 0 b.waiting with
  | none => none
  | some d =>
    some ({ b with memory_data := d, waiting := 0, overrun := false }, d, b.waiting)

/-- Models the serial transport filling `memory_isr` during an
interrupt (`uart.readinto(buffer.memory_isr)` in `app.py`): the first
`bs.length` bytes of the scratch region are overwritten, clipped to the
region size, and no other state changes. -/
def InterruptProducerBuffer.isrFill (b : InterruptProducerBuffer) (bs : List Nat) :
    InterruptProducerBuffer :=
  { b with memory_isr := (bs ++ b.memory_isr.drop bs.length).take b.memory_isr.length }

/-- One ISR activation as in `MIDIHandler._on_uart_interrupt`: the
transport places `bs` in the scratch region, then `commit(len(bs))`. -/
def InterruptProducerBuffer.burst (b : InterruptProducerBuffer) (bs : List Nat) :
    Option InterruptProducerBuffer :=
  (b.isrFill bs).commit bs.length

/-- A sequence of ISR activations between two drains. -/
def InterruptProducerBuffer.runBursts (b : InterruptProducerBuffer) :
    List (List Nat) → Option InterruptProducerBuffer
  | [] => some b
  | bs :: rest =>
    match b.burst bs with
    | none => none
    | some b2 => b2.runBursts rest

/-- Total number of bytes in a sequence of bursts. -/
def totalLen (l : List (List Nat)) : Nat :=
  (l.map List.length).sum

/-- Buffer states reachable through the public interface: freshly
constructed, or obtained from a reachable state by an ISR fill, a
successful `commit`, or a successful read of `data`. -/
inductive Reachable : InterruptProducerBuffer → Prop
  | construct (isr_buffer latency : Nat) :
      Reachable (InterruptProducerBuffer.init isr_buffer latency)
  | fill (b : InterruptProducerBuffer) (bs : List Nat) :
      Reachable b → Reachable (b.isrFill bs)
  | commit (b b2 : InterruptProducerBuffer) (length : Nat) :
      Reachable b → b.commit length = some b2 → Reachable b2
  | drain (b b2 : InterruptProducerBuffer) (view : List Nat) (n : Nat) :
      Reachable b → b.data = some (b2, view, n) → Reachable b2

/-- Embeds the transposition condition of the main loop of
`research/micropython/midi-in-out/main.py` (lines 57-59), with
`transpose = 12` as set on line 44.  Python parses
`a or b and c` as `a or (b and c)` and treats a nonzero integer as
true, so the source condition
`prev & 0x80 or prev & 0x90 and midi_byte < 127 - transpose`
is `(prev & 0x80 != 0) or ((prev & 0x90 != 0) and (b < 115))`. -/
def mainLoopCond (prev midi_byte : Nat) : Bool :=
  (Nat.land prev 0x80 != 0) || ((Nat.land prev 0x90 != 0) && (midi_byte < 127 - 12))

/-- Embeds the body of the echo loop of `main.py` (lines 53-65): each
byte of the chunk is transposed by 12 when `mainLoopCond` holds for the
previous emitted byte, then emitted and remembered as `prev_midi_byte`. -/
def mainLoopChunk (prev : Nat) : List Nat → List Nat
  | [] => []
  | midi_byte :: rest =>
    let out := if mainLoopCond prev midi_byte then midi_byte + 12 else midi_byte
    out :: mainLoopChunk out rest

/-- Embeds one iteration of the outer `while True` loop of `main.py`
on a chunk read by `uart.readinto`: `prev_midi_byte` starts at 0
(line 48). -/
def mainLoopEcho (chunk : List Nat) : List Nat :=
  mainLoopChunk 0 chunk

/-- Modelled from the spec: the parser state of `MidiStreamProcessor`
(spec section 3), which is absent from the source tree — the
`MIDIHandler.process` method of `midi-in-out/app.py` is a placeholder
marked `TODO: Real MIDI handling` that forwards raw bytes.
`CollectingChannelMessage status d1` holds the pending status byte and
the first data byte once collected. -/
inductive ParserState
  | Idle : ParserState
  | CollectingChannelMessage : Nat → Option Nat → ParserState
deriving DecidableEq

/-- Modelled from the spec: the mutable state of `MidiStreamProcessor`:
the parser state plus the remembered running status. -/
structure MidiState where
  parser_state : ParserState
  running_status : Option Nat
deriving DecidableEq

/-- Modelled from the spec: initial processor state (nothing collected,
no running status seen yet). -/
def initialMidiState : MidiState :=
  { parser_state := ParserState.Idle, running_status := none }

/-- Modelled from the spec: `clamp(x, 0, 127)` used by the transform
policies. -/
def clamp0to127 (x : Int) : Nat :=
  (max 0 (min 127 x)).toNat

/-- Modelled from the spec: the transform policy of
`MidiStreamProcessor` (spec section 3). -/
inductive TransformPolicy
  | Echo : TransformPolicy
  | Transpose : Int → TransformPolicy
  | ChordExpand : List Int → TransformPolicy
deriving DecidableEq

/-- Modelled from the spec: bytes emitted for one completed channel
message under a transform policy (spec section 4.2). -/
def applyTransform (t : TransformPolicy) (status data1 data2 : Nat) : List Nat :=
  match t with
  | TransformPolicy.Echo => [status, data1, data2]
  | TransformPolicy.Transpose semitones =>
    [status, clamp0to127 (Int.ofNat data1 + semitones), data2]
  | TransformPolicy.ChordExpand intervals =>
    (intervals.map (fun k => [status, clamp0to127 (Int.ofNat data1 + k), data2])).flatten

/-- Modelled from the spec: the per-byte state machine of
`MidiStreamProcessor` (spec section 4.2).  Returns the next state, the
channel messages completed by this byte, and the bytes written to the
output.  The real-time bytes `0xFE` and `0xFC` are dropped
unconditionally; other status bytes either start a Note On/Off
collection (`0x80..0x9F`) or pass through; data bytes accumulate,
reusing the running status from `Idle`, and pass through when no
running status exists. -/
def processByte (t : TransformPolicy) (st : MidiState) (b : Nat) :
    MidiState × List (Nat × Nat × Nat) × List Nat :=
  if b = 0xFE ∨ b = 0xFC then
    (st, [], [])
  else if 0x80 ≤ b then
    if b ≤ 0x9F then
      ({ parser_state := ParserState.CollectingChannelMessage b none,
         running_status := some b }, [], [])
    else
      ({ st with parser_state := ParserState.Idle }, [], [b])
  else
    match st.parser_state with
    | ParserState.CollectingChannelMessage s none =>
      ({ st with parser_state := ParserState.CollectingChannelMessage s (some b) }, [], [])
    | ParserState.CollectingChannelMessage s (some d1) =>
      ({ st with parser_state := ParserState.Idle }, [(s, d1, b)], applyTransform t s d1 b)
    | ParserState.Idle =>
      match st.running_status with
      | some rs =>
        ({ st with parser_state := ParserState.CollectingChannelMessage rs (some b) },
          [], [])
      | none => (st, [], [b])

/-- Modelled from the spec: processing a drained byte sequence in
order, collecting completed messages and output bytes. -/
def processBytes (t : TransformPolicy) (st : MidiState) : List Nat →
    MidiState × List (Nat × Nat × Nat) × List Nat
  | [] => (st, [], [])
  | b :: rest =>
    let r1 := processByte t st b
    let r2 := processBytes t r1.1 rest
    (r2.1, r1.2.1 ++ r2.2.1, r1.2.2 ++ r2.2.2)

/-- States of the modelled processor in which every remembered status
byte lies in the Note On/Off range and every collected data byte has
the high bit clear; all states reachable from `initialMidiState` are of
this shape. -/
def GoodMidiState (st : MidiState) : Prop :=
  (∀ s d, st.parser_state = ParserState.CollectingChannelMessage s d →
    (0x80 ≤ s ∧ s ≤ 0x9F) ∧ ∀ x, d = some x → x < 0x80) ∧
  (∀ rs, st.running_status = some rs → 0x80 ≤ rs ∧ rs ≤ 0x9F)

/-- In-bounds run of the copy loop body: copying `k` bytes starting at
source index `i` overwrites exactly `dst[off+i .. off+i+k)`. -/
theorem copyCount_eq (src : List Nat) :
    ∀ (k : Nat) (dst : List Nat) (off i : Nat),
      i + k ≤ src.length → off + i + k ≤ dst.length →
      copyCount src dst off i k =
        some (dst.take (off + i) ++ (src.drop i).take k ++ dst.drop (off + i + k)) := by
  intro k
  induction k with
  | zero =>
    intro dst off i _ _
    simp [copyCount]
  | succ k ih =>
    intro dst off i hsrc hdst
    have hi : i < src.length := by omega
    have hoff : off + i < dst.length := by omega
    have hget : mvget src i = some src[i] := by
      simp [mvget]
    have hset : mvset dst (off + i) src[i] = some (dst.set (off + i) src[i]) := by
      simp [mvset, hoff]
    simp only [copyCount, hget, hset]
    rw [ih (dst.set (off + i) src[i]) off (i + 1) (by omega) (by simp; omega)]
    have hset2 : dst.set (off + i) src[i] =
        dst.take (off + i) ++ src[i] :: dst.drop (off + i + 1) :=
      List.set_eq_take_cons_drop src[i] hoff
    have hlen : (dst.take (off + i)).length = off + i := by
      rw [List.length_take]
      omega
    have e1 : off + (i + 1) = (dst.take (off + i)).length + 1 := by
      rw [hlen]
      omega
    have e2 : off + (i + 1) + k = (dst.take (off + i)).length + (k + 1) := by
      rw [hlen]
      omega
    have htake : (dst.set (off + i) src[i]).take (off + (i + 1)) =
        dst.take (off + i) ++ [src[i]] := by
      rw [hset2, e1, List.take_append]
      rfl
    have hdrop : (dst.set (off + i) src[i]).drop (off + (i + 1) + k) =
        dst.drop (off + i + (k + 1)) := by
      rw [hset2, e2, List.drop_append, List.drop_succ_cons, List.drop_drop]
      congr 1
      omega
    have hsrcdrop : (src.drop i).take (k + 1) = src[i] :: (src.drop (i + 1)).take k := by
      rw [List.drop_eq_getElem_cons hi]
      rfl
    rw [htake, hdrop, hsrcdrop]
    simp [List.append_assoc]

/-- In-bounds run of a full copy loop: the destination becomes
`dst[0..off) ++ src[0..n) ++ dst[off+n..)`. -/
theorem copyLoop_eq (src dst : List Nat) (off n : Nat)
    (hsrc : n ≤ src.length) (hdst : off + n ≤ dst.length) :
    copyLoop src dst off n =
      some (dst.take off ++ src.take n ++ dst.drop (off + n)) := by
  have h := copyCount_eq src n dst off 0 (by omega) (by omega)
  simpa [copyLoop] using h

/-- A fitting `commit` copies the first `length` bytes of the scratch
region to the end of the waiting area and advances `waiting`. -/
theorem commit_eq (b : InterruptProducerBuffer) (length : Nat)
    (hsrc : length ≤ b.memory_isr.length)
    (hfit : b.waiting + length ≤ b.memory_wait.length) :
    b.commit length =
      some { b with
        memory_wait := b.memory_wait.take b.waiting ++ b.memory_isr.take length ++
          b.memory_wait.drop (b.waiting + length),
        waiting := b.waiting + length } := by
  have hloop := copyLoop_eq b.memory_isr b.memory_wait b.waiting length hsrc hfit
  simp only [InterruptProducerBuffer.commit]
  rw [if_neg (by omega), hloop]

/-- A `commit` that does not fit only sets the overrun flag. -/
theorem commit_reject (b : InterruptProducerBuffer) (length : Nat)
    (hover : b.waiting + length > b.memory_wait.length) :
    b.commit length = some { b with overrun := true } := by
  simp only [InterruptProducerBuffer.commit]
  rw [if_pos (by omega)]

/-- Successful drain: the data region receives the first `waiting`
bytes of the waiting area, `waiting` resets to 0 and `overrun` clears. -/
theorem data_eq (b : InterruptProducerBuffer)
    (hw : b.waiting ≤ b.memory_wait.length)
    (hd : b.waiting ≤ b.memory_data.length) :
    b.data =
      some ({ b with
          memory_data := b.memory_wait.take b.waiting ++ b.memory_data.drop b.waiting,
          waiting := 0,
          overrun := false },
        b.memory_wait.take b.waiting ++ b.memory_data.drop b.waiting,
        b.waiting) := by
  have hloop := copyLoop_eq b.memory_wait b.memory_data 0 b.waiting hw (by omega)
  simp only [InterruptProducerBuffer.data]
  rw [hloop]
  simp

/-- A fitting burst appends its bytes to the waiting area, records them
in the scratch region, and leaves flag and data region alone. -/
theorem burst_eq (b : InterruptProducerBuffer) (bs : List Nat)
    (hbs : bs.length ≤ b.memory_isr.length)
    (hfit : b.waiting + bs.length ≤ b.memory_wait.length) :
    b.burst bs =
      some { b with
        memory_isr := bs ++ b.memory_isr.drop bs.length,
        memory_wait := b.memory_wait.take b.waiting ++ bs ++
          b.memory_wait.drop (b.waiting + bs.length),
        waiting := b.waiting + bs.length } := by
  have hisr : (bs ++ b.memory_isr.drop bs.length).take b.memory_isr.length =
      bs ++ b.memory_isr.drop bs.length := by
    apply List.take_of_length_le
    rw [List.length_append, List.length_drop]
    omega
  have hfill : b.isrFill bs =
      { b with memory_isr := bs ++ b.memory_isr.drop bs.length } := by
    simp [InterruptProducerBuffer.isrFill, hisr]
  rw [InterruptProducerBuffer.burst, hfill]
  rw [commit_eq _ bs.length (by rw [List.length_append, List.length_drop]; omega)
    (by simpa using hfit)]
  congr 1
  simp [List.take_left]

/-- Running a fitting sequence of bursts appends their concatenation to
the waiting area, in order, leaving flag and data region untouched. -/
theorem runBursts_eq (bsl : List (List Nat)) :
    ∀ (b : InterruptProducerBuffer),
      (∀ bs ∈ bsl, bs.length ≤ b.memory_isr.length) →
      b.waiting + totalLen bsl ≤ b.memory_wait.length →
      ∃ b2, b.runBursts bsl = some b2 ∧
        b2.memory_wait = b.memory_wait.take b.waiting ++ bsl.flatten ++
          b.memory_wait.drop (b.waiting + totalLen bsl) ∧
        b2.waiting = b.waiting + totalLen bsl ∧
        b2.overrun = b.overrun ∧
        b2.memory_data = b.memory_data ∧
        b2.memory_wait.length = b.memory_wait.length ∧
        b2.memory_isr.length = b.memory_isr.length := by
  induction bsl with
  | nil =>
    intro b _ _
    refine ⟨b, rfl, ?_, by simp [totalLen], rfl, rfl, rfl, rfl⟩
    simp [totalLen, InterruptProducerBuffer.runBursts]
  | cons bs rest ih =>
    intro b hall hfit
    have htot : totalLen (bs :: rest) = bs.length + totalLen rest := by
      simp [totalLen]
    rw [htot] at hfit
    have hbs : bs.length ≤ b.memory_isr.length := hall bs (by simp)
    have hfit1 : b.waiting + bs.length ≤ b.memory_wait.length := by omega
    have hb1 := burst_eq b bs hbs hfit1
    set b1 : InterruptProducerBuffer :=
      { b with
        memory_isr := bs ++ b.memory_isr.drop bs.length,
        memory_wait := b.memory_wait.take b.waiting ++ bs ++
          b.memory_wait.drop (b.waiting + bs.length),
        waiting := b.waiting + bs.length } with hb1def
    have hAlen : (b.memory_wait.take b.waiting).length = b.waiting := by
      rw [List.length_take]
      omega
    have hwlen : b1.memory_wait.length = b.memory_wait.length := by
      simp only [hb1def, List.length_append, List.length_take, List.length_drop]
      omega
    have hisrlen : b1.memory_isr.length = b.memory_isr.length := by
      simp only [hb1def, List.length_append, List.length_drop]
      omega
    have hw1 : b1.waiting = b.waiting + bs.length := rfl
    obtain ⟨b2, hrun, hwait2, hcount, hov, hdat, hwl2, hil2⟩ :=
      ih b1
        (fun bs2 hm => by
          rw [hisrlen]
          exact hall bs2 (List.mem_cons_of_mem _ hm))
        (by rw [hwlen, hw1]; omega)
    have htake1 : b1.memory_wait.take b1.waiting = b.memory_wait.take b.waiting ++ bs := by
      rw [hw1]
      show (b.memory_wait.take b.waiting ++ bs ++
          b.memory_wait.drop (b.waiting + bs.length)).take (b.waiting + bs.length) =
        b.memory_wait.take b.waiting ++ bs
      rw [show b.waiting + bs.length = (b.memory_wait.take b.waiting).length + bs.length by
        rw [hAlen]]
      rw [List.append_assoc, List.take_append, List.take_left]
    have hdrop1 : b1.memory_wait.drop (b1.waiting + totalLen rest) =
        b.memory_wait.drop (b.waiting + (bs.length + totalLen rest)) := by
      rw [hw1]
      show (b.memory_wait.take b.waiting ++ bs ++
          b.memory_wait.drop (b.waiting + bs.length)).drop
          (b.waiting + bs.length + totalLen rest) =
        b.memory_wait.drop (b.waiting + (bs.length + totalLen rest))
      rw [show b.waiting + bs.length + totalLen rest =
        (b.memory_wait.take b.waiting).length + (bs.length + totalLen rest) by
          rw [hAlen]; omega]
      rw [List.append_assoc, List.drop_append, List.drop_append, List.drop_drop]
      congr 1
      omega
    refine ⟨b2, ?_, ?_, ?_, ?_, ?_, ?_, ?_⟩
    · show b.runBursts (bs :: rest) = some b2
      rw [InterruptProducerBuffer.runBursts, hb1]
      exact hrun
    · rw [hwait2, htake1, hdrop1, htot]
      simp [List.append_assoc]
    · rw [hcount, hw1, htot]
      omega
    · exact hov
    · exact hdat
    · rw [hwl2, hwlen]
    · rw [hil2, hisrlen]

/-- The copy loop preserves the length of the destination region. -/
theorem copyCount_length (src : List Nat) :
    ∀ (k : Nat) (dst : List Nat) (off i : Nat) (d : List Nat),
      copyCount src dst off i k = some d → d.length = dst.length := by
  intro k
  induction k with
  | zero =>
    intro dst off i d h
    simp only [copyCount, Option.some.injEq] at h
    rw [← h]
  | succ k ih =>
    intro dst off i d h
    simp only [copyCount] at h
    cases hg : mvget src i with
    | none => simp only [hg] at h; cases h
    | some v =>
      simp only [hg] at h
      cases hs : mvset dst (off + i) v with
      | none => simp only [hs] at h; cases h
      | some dst2 =>
        simp only [hs] at h
        have h2 := ih dst2 off (i + 1) d h
        have h3 : dst2.length = dst.length := by
          unfold mvset at hs
          split at hs
          · simp only [Option.some.injEq] at hs
            rw [← hs, List.length_set]
          · cases hs
        omega

/-- The waiting count never exceeds the waiting region in a reachable
state (the invariant of spec section 3). -/
theorem reachable_waiting_le (b : InterruptProducerBuffer) (h : Reachable b) :
    b.waiting ≤ b.memory_wait.length := by
  induction h with
  | construct cap lat => simp [InterruptProducerBuffer.init]
  | fill b bs _ ih => exact ih
  | commit b b2 len _ hc ih =>
    simp only [InterruptProducerBuffer.commit] at hc
    split at hc
    · simp only [Option.some.injEq] at hc
      rw [← hc]
      exact ih
    · rename_i hguard
      cases hcl : copyLoop b.memory_isr b.memory_wait b.waiting len with
      | none => rw [hcl] at hc; cases hc
      | some w =>
        rw [hcl] at hc
        simp only [Option.some.injEq] at hc
        have hwl := copyCount_length b.memory_isr len b.memory_wait b.waiting 0 w hcl
        rw [← hc]
        simp only []
        omega
  | drain b b2 view n _ hd _ =>
    simp only [InterruptProducerBuffer.data] at hd
    cases hcl : copyLoop b.memory_wait b.memory_data 0 b.waiting with
    | none => rw [hcl] at hd; cases hd
    | some d =>
      rw [hcl] at hd
      simp only [Option.some.injEq, Prod.mk.injEq] at hd
      rw [← hd.1]
      exact Nat.zero_le _

/-- The concatenated burst bytes have length `totalLen`. -/
theorem flatten_length_totalLen (bsl : List (List Nat)) :
    bsl.flatten.length = totalLen bsl := by
  simp [totalLen]

/-- C1: for every sequence of commits made between two drains whose
cumulative length fits in the waiting region, the next drain returns
exactly the concatenation of the committed bytes, in commit order, as
its first `bytes_available` bytes, and the overrun flag is false after
that drain. -/
theorem commits_then_drain_yield_concat (b : InterruptProducerBuffer)
    (bsl : List (List Nat))
    (hdrained : b.waiting = 0)
    (hall : ∀ bs ∈ bsl, bs.length ≤ b.memory_isr.length)
    (hcap : totalLen bsl ≤ b.memory_wait.length)
    (hdata : b.memory_wait.length ≤ b.memory_data.length) :
    ∃ b2 b3 view,
      b.runBursts bsl = some b2 ∧
      b2.data = some (b3, view, totalLen bsl) ∧
      view.take (totalLen bsl) = bsl.flatten ∧
      b3.overrun = false := by
  obtain ⟨b2, hrun, hwait, hcount, _, hdatreg, hwl, _⟩ :=
    runBursts_eq bsl b hall (by omega)
  have hwait2 : b2.memory_wait = bsl.flatten ++ b.memory_wait.drop (totalLen bsl) := by
    rw [hwait, hdrained]
    simp
  have hflat : bsl.flatten.length = totalLen bsl := flatten_length_totalLen bsl
  have hcnt : b2.waiting = totalLen bsl := by
    rw [hcount, hdrained]
    omega
  have hd := data_eq b2 (by rw [hcnt, hwl]; exact hcap)
    (by rw [hcnt, hdatreg]; omega)
  rw [hcnt] at hd
  refine ⟨b2,
    { b2 with
      memory_data := b2.memory_wait.take (totalLen bsl) ++
        b2.memory_data.drop (totalLen bsl),
      waiting := 0, overrun := false },
    b2.memory_wait.take (totalLen bsl) ++ b2.memory_data.drop (totalLen bsl),
    hrun, hd, ?_, rfl⟩
  have h1 : (b2.memory_wait.take (totalLen bsl)).length = totalLen bsl := by
    rw [List.length_take, hwl]
    omega
  rw [List.take_left' h1, hwait2]
  exact List.take_left' hflat

/-- C2: a commit that would push `waiting` beyond the waiting region
discards all of the incoming bytes (no partial copy), sets the overrun
flag, and leaves the waiting count unchanged. -/
theorem rejected_commit_discards_burst (b : InterruptProducerBuffer) (length : Nat)
    (hover : b.waiting + length > b.memory_wait.length) :
    b.commit length = some { b with overrun := true } ∧
    ({ b with overrun := true } : InterruptProducerBuffer).memory_wait = b.memory_wait ∧
    ({ b with overrun := true } : InterruptProducerBuffer).waiting = b.waiting :=
  ⟨commit_reject b length hover, rfl, rfl⟩

/-- C2 witness: on a fresh buffer of 24 waiting bytes, a commit of 25
bytes is rejected as a whole. -/
theorem rejected_commit_discards_burst_witness :
    (InterruptProducerBuffer.init 8 3).commit 25 =
      some { InterruptProducerBuffer.init 8 3 with overrun := true } ∧
    ({ InterruptProducerBuffer.init 8 3 with overrun := true } :
      InterruptProducerBuffer).memory_wait =
      (InterruptProducerBuffer.init 8 3).memory_wait ∧
    ({ InterruptProducerBuffer.init 8 3 with overrun := true } :
      InterruptProducerBuffer).waiting = (InterruptProducerBuffer.init 8 3).waiting :=
  rejected_commit_discards_burst (InterruptProducerBuffer.init 8 3) 25 (by decide)

/-- C6: draining leaves a state whose overrun flag is false, and a
second drain with no intervening commit returns zero bytes available. -/
theorem drain_idempotent_clears_overrun (b b2 : InterruptProducerBuffer)
    (view : List Nat) (n : Nat) (h : b.data = some (b2, view, n)) :
    b2.overrun = false ∧ b2.data = some (b2, b2.memory_data, 0) := by
  simp only [InterruptProducerBuffer.data] at h
  cases hcl : copyLoop b.memory_wait b.memory_data 0 b.waiting with
  | none => rw [hcl] at h; cases h
  | some d =>
    rw [hcl] at h
    simp only [Option.some.injEq, Prod.mk.injEq] at h
    rw [← h.1]
    exact ⟨rfl, rfl⟩

/-- C6 witness: a buffer with the overrun flag set drains to the fresh
state, and draining again returns zero bytes. -/
theorem drain_idempotent_clears_overrun_witness :
    (InterruptProducerBuffer.init 2 1).overrun = false ∧
    (InterruptProducerBuffer.init 2 1).data =
      some (InterruptProducerBuffer.init 2 1,
        (InterruptProducerBuffer.init 2 1).memory_data, 0) :=
  drain_idempotent_clears_overrun
    { InterruptProducerBuffer.init 2 1 with overrun := true }
    (InterruptProducerBuffer.init 2 1)
    (InterruptProducerBuffer.init 2 1).memory_data 0 (by decide)

/-- C7 counterexample: the constructor does not reject a zero
`isr_buffer` or a zero `latency`.  It succeeds and returns a buffer
object with a zero-sized waiting region that operations accept: drain
succeeds (returning zero bytes) and `commit 0` succeeds. -/
theorem init_accepts_zero_config :
    (InterruptProducerBuffer.init 8 0).memory_wait.length = 0 ∧
    (InterruptProducerBuffer.init 8 0).data =
      some (InterruptProducerBuffer.init 8 0, [], 0) ∧
    (InterruptProducerBuffer.init 8 0).commit 0 =
      some (InterruptProducerBuffer.init 8 0) ∧
    (InterruptProducerBuffer.init 0 3).memory_wait.length = 0 ∧
    (InterruptProducerBuffer.init 0 3).data =
      some (InterruptProducerBuffer.init 0 3, [], 0) := by
  decide

/-- C7 amended: construction with `isr_buffer = 0` or `latency = 0` is
not rejected; it yields a buffer whose waiting region has size zero, on
which every commit of positive length is discarded with the overrun
flag set, while drain succeeds returning zero bytes. -/
theorem init_zero_config_degenerate (cap lat L : Nat) (hL : 0 < L) :
    (InterruptProducerBuffer.init cap 0).memory_wait.length = 0 ∧
    (InterruptProducerBuffer.init 0 lat).memory_wait.length = 0 ∧
    (InterruptProducerBuffer.init cap 0).commit L =
      some { InterruptProducerBuffer.init cap 0 with overrun := true } ∧
    (InterruptProducerBuffer.init 0 lat).commit L =
      some { InterruptProducerBuffer.init 0 lat with overrun := true } ∧
    (∃ view, (InterruptProducerBuffer.init cap 0).data =
      some (InterruptProducerBuffer.init cap 0, view, 0)) := by
  have hcap0 : (InterruptProducerBuffer.init cap 0).memory_wait.length = 0 := by
    simp [InterruptProducerBuffer.init]
  have hlat0 : (InterruptProducerBuffer.init 0 lat).memory_wait.length = 0 := by
    simp [InterruptProducerBuffer.init]
  have hw : (InterruptProducerBuffer.init cap 0).waiting = 0 := rfl
  have hw2 : (InterruptProducerBuffer.init 0 lat).waiting = 0 := rfl
  refine ⟨hcap0, hlat0, ?_, ?_, ?_⟩
  · exact commit_reject _ L (by rw [hcap0, hw]; omega)
  · exact commit_reject _ L (by rw [hlat0, hw2]; omega)
  · have hd := data_eq (InterruptProducerBuffer.init cap 0) (by rw [hw]; omega)
      (by rw [hw]; omega)
    rw [hw] at hd
    simp only [List.take_zero, List.drop_zero, List.nil_append] at hd
    exact ⟨(InterruptProducerBuffer.init cap 0).memory_data, hd⟩

/-- C7 amended witness at `isr_buffer = 8, latency = 3, length = 1`. -/
theorem init_zero_config_degenerate_witness :
    (InterruptProducerBuffer.init 8 0).memory_wait.length = 0 ∧
    (InterruptProducerBuffer.init 0 3).memory_wait.length = 0 ∧
    (InterruptProducerBuffer.init 8 0).commit 1 =
      some { InterruptProducerBuffer.init 8 0 with overrun := true } ∧
    (InterruptProducerBuffer.init 0 3).commit 1 =
      some { InterruptProducerBuffer.init 0 3 with overrun := true } ∧
    (∃ view, (InterruptProducerBuffer.init 8 0).data =
      some (InterruptProducerBuffer.init 8 0, view, 0)) :=
  init_zero_config_degenerate 8 3 1 (by decide)

/-- C8: after a rejected commit sets the overrun flag, the buffer is
not locked out: a subsequent fitting burst is appended normally, the
flag stays set until the next drain, and that drain returns the bytes
committed before the rejection followed by the new burst. -/
theorem overrun_does_not_lock_out (b : InterruptProducerBuffer) (L : Nat) (bs : List Nat)
    (hrej : b.waiting + L > b.memory_wait.length)
    (hbs : bs.length ≤ b.memory_isr.length)
    (hfit : b.waiting + bs.length ≤ b.memory_wait.length)
    (hdat : b.memory_wait.length ≤ b.memory_data.length) :
    ∃ b1 b2 b3 view,
      b.commit L = some b1 ∧ b1.overrun = true ∧ b1.waiting = b.waiting ∧
      b1.burst bs = some b2 ∧ b2.overrun = true ∧
      b2.waiting = b.waiting + bs.length ∧
      b2.data = some (b3, view, b.waiting + bs.length) ∧
      view.take (b.waiting + bs.length) = b.memory_wait.take b.waiting ++ bs ∧
      b3.overrun = false := by
  have h1 : b.commit L = some { b with overrun := true } := commit_reject b L hrej
  have h2 := burst_eq { b with overrun := true } bs hbs hfit
  set b2 : InterruptProducerBuffer :=
    { b with
      overrun := true,
      memory_isr := bs ++ b.memory_isr.drop bs.length,
      memory_wait := b.memory_wait.take b.waiting ++ bs ++
        b.memory_wait.drop (b.waiting + bs.length),
      waiting := b.waiting + bs.length } with hb2def
  have hAlen : (b.memory_wait.take b.waiting).length = b.waiting := by
    rw [List.length_take]
    omega
  have hwlen : b2.memory_wait.length = b.memory_wait.length := by
    simp only [hb2def, List.length_append, List.length_take, List.length_drop]
    omega
  have hd := data_eq b2 (by rw [hwlen]; exact hfit) (by exact le_trans hfit hdat)
  have htk : b2.memory_wait.take b2.waiting = b.memory_wait.take b.waiting ++ bs := by
    show (b.memory_wait.take b.waiting ++ bs ++
        b.memory_wait.drop (b.waiting + bs.length)).take (b.waiting + bs.length) =
      b.memory_wait.take b.waiting ++ bs
    rw [show b.waiting + bs.length = (b.memory_wait.take b.waiting).length + bs.length by
      rw [hAlen]]
    rw [List.append_assoc, List.take_append, List.take_left]
  refine ⟨{ b with overrun := true }, b2,
    { b2 with
      memory_data := b2.memory_wait.take b2.waiting ++ b2.memory_data.drop b2.waiting,
      waiting := 0, overrun := false },
    b2.memory_wait.take b2.waiting ++ b2.memory_data.drop b2.waiting,
    h1, rfl, rfl, h2, rfl, rfl, hd, ?_, rfl⟩
  have hlen2 : (b2.memory_wait.take b2.waiting).length = b.waiting + bs.length := by
    rw [List.length_take, hwlen]
    show min (b.waiting + bs.length) b.memory_wait.length = b.waiting + bs.length
    omega
  rw [List.take_left' hlen2]
  exact htk

/-- C8 witness: on a small buffer holding one byte, a rejected commit
of 2 bytes is followed by an accepted burst of one byte and a drain
returning both bytes. -/
theorem overrun_does_not_lock_out_witness :
    ∃ b1 b2 b3 view,
      ({ memory_isr := [1, 2], memory_wait := [5, 0], memory_data := [0, 0],
         overrun := false, waiting := 1 } : InterruptProducerBuffer).commit 2 =
        some b1 ∧
      b1.overrun = true ∧ b1.waiting = 1 ∧
      b1.burst [9] = some b2 ∧ b2.overrun = true ∧ b2.waiting = 1 + [9].length ∧
      b2.data = some (b3, view, 1 + [9].length) ∧
      view.take (1 + [9].length) = [5, 0].take 1 ++ [9] ∧
      b3.overrun = false :=
  overrun_does_not_lock_out
    { memory_isr := [1, 2], memory_wait := [5, 0], memory_data := [0, 0],
      overrun := false, waiting := 1 }
    2 [9] (by decide) (by decide) (by decide) (by decide)

/-- C9: in every reachable buffer state, a commit of at most
`capacity_per_region` bytes is safe: no index into the scratch region
or the waiting region goes out of bounds, so the operation returns a
value instead of raising. -/
theorem commit_safe_in_reachable_state (b : InterruptProducerBuffer) (length : Nat)
    (hreach : Reachable b) (hlen : length ≤ b.memory_isr.length) :
    (b.commit length).isSome = true := by
  have hw := reachable_waiting_le b hreach
  by_cases hover : b.waiting + length > b.memory_wait.length
  · rw [commit_reject b length hover]
    rfl
  · rw [commit_eq b length hlen (by omega)]
    rfl

/-- C9 witness: committing 5 bytes on a fresh 8-byte-scratch buffer. -/
theorem commit_safe_in_reachable_state_witness :
    ((InterruptProducerBuffer.init 8 3).commit 5).isSome = true :=
  commit_safe_in_reachable_state (InterruptProducerBuffer.init 8 3) 5
    (Reachable.construct 8 3) (by decide)

/-- C10: a zero-length commit is an identity: it cannot set the
overrun flag and changes nothing, for every state satisfying the
waiting-count invariant (including a completely full waiting region). -/
theorem commit_zero_identity (b : InterruptProducerBuffer)
    (hw : b.waiting ≤ b.memory_wait.length) :
    b.commit 0 = some b := by
  obtain ⟨isr, wait, dat, ov, w⟩ := b
  simp only at hw
  rw [commit_eq ⟨isr, wait, dat, ov, w⟩ 0 (by omega) (by simp only []; omega)]
  simp

/-- C10 witness: a zero-length commit on a completely full waiting
region changes nothing. -/
theorem commit_zero_identity_witness :
    ({ memory_isr := [1, 2], memory_wait := [3, 4], memory_data := [0, 0],
       overrun := false, waiting := 2 } : InterruptProducerBuffer).commit 0 =
      some { memory_isr := [1, 2], memory_wait := [3, 4], memory_data := [0, 0],
             overrun := false, waiting := 2 } :=
  commit_zero_identity
    { memory_isr := [1, 2], memory_wait := [3, 4], memory_data := [0, 0],
      overrun := false, waiting := 2 } (by decide)

/-- C1 witness: two bursts on a fresh buffer drain to their
concatenation with a clear overrun flag. -/
theorem commits_then_drain_yield_concat_witness :
    ∃ b2 b3 view,
      (InterruptProducerBuffer.init 8 3).runBursts [[1, 2], [3, 4, 5]] = some b2 ∧
      b2.data = some (b3, view, totalLen [[1, 2], [3, 4, 5]]) ∧
      view.take (totalLen [[1, 2], [3, 4, 5]]) =
        ([[1, 2], [3, 4, 5]] : List (List Nat)).flatten ∧
      b3.overrun = false :=
  commits_then_drain_yield_concat (InterruptProducerBuffer.init 8 3)
    [[1, 2], [3, 4, 5]] (by decide) (by decide) (by decide) (by decide)

/-- C4: evaluating the `main.py` echo loop at the inputs of the claim.
The message `[0x90, 0x40, 0x64]` is indeed emitted as
`[0x90, 0x4C, 0x64]`, but `[0x90, 0x7F, 0x64]` is emitted as
`[0x90, 0x8B, 0x70]`: the note byte wraps past 127 into a spurious
status byte instead of being clamped at `0x7F`, and the velocity byte
is transposed as well, because the clamping guard
`midi_byte < 127 - transpose` is dead code behind Python's
`or` precedence. -/
theorem mainLoopEcho_wraps_instead_of_clamping :
    mainLoopEcho [0x90, 0x40, 0x64] = [0x90, 0x4C, 0x64] ∧
    mainLoopEcho [0x90, 0x7F, 0x64] = [0x90, 0x8B, 0x70] ∧
    mainLoopEcho [0x90, 0x7F, 0x64] ≠ [0x90, 0x7F, 0x64] ∧
    0x80 ≤ 0x8B := by
  decide

/-- C3: feeding `[0x90, 0x40, 0x64, 0x44, 0x64]` to the modelled
stream processor under `Echo` completes exactly the two Note On
messages `(0x90, 0x40, 0x64)` then `(0x90, 0x44, 0x64)`; after the
first message the parser is `Idle` with running status `0x90`, and the
fourth byte `0x44` starts a new message reusing that status. -/
theorem running_status_reuses_last_status :
    (processBytes TransformPolicy.Echo initialMidiState
      [0x90, 0x40, 0x64, 0x44, 0x64]).2.1 =
      [(0x90, 0x40, 0x64), (0x90, 0x44, 0x64)] ∧
    (processBytes TransformPolicy.Echo initialMidiState [0x90, 0x40, 0x64]).1 =
      { parser_state := ParserState.Idle, running_status := some 0x90 } ∧
    processByte TransformPolicy.Echo
      { parser_state := ParserState.Idle, running_status := some 0x90 } 0x44 =
      ({ parser_state := ParserState.CollectingChannelMessage 0x90 (some 0x44),
         running_status := some 0x90 }, [], []) := by
  decide

/-- The clamp used by the transform policies stays below `0x80`. -/
theorem clamp0to127_le (x : Int) : clamp0to127 x ≤ 127 := by
  simp only [clamp0to127]
  have h1 : min 127 x ≤ 127 := min_le_left _ _
  have h2 : max 0 (min 127 x) ≤ (127 : Int) := max_le (by omega) h1
  omega

/-- Bytes emitted by a transform for a well-formed completed message
are never the filtered real-time bytes. -/
theorem applyTransform_not_realtime (t : TransformPolicy) (s d1 d2 o : Nat)
    (hs : s ≤ 0x9F) (h1 : d1 < 0x80) (h2 : d2 < 0x80)
    (ho : o ∈ applyTransform t s d1 d2) : o ≠ 0xFE ∧ o ≠ 0xFC := by
  cases t with
  | Echo =>
    simp only [applyTransform, List.mem_cons, List.not_mem_nil, or_false] at ho
    rcases ho with rfl | rfl | rfl <;> omega
  | Transpose k =>
    simp only [applyTransform, List.mem_cons, List.not_mem_nil, or_false] at ho
    have hc := clamp0to127_le (Int.ofNat d1 + k)
    rcases ho with rfl | rfl | rfl <;> omega
  | ChordExpand ks =>
    simp only [applyTransform, List.mem_flatten, List.mem_map] at ho
    obtain ⟨l, ⟨k, _, rfl⟩, hol⟩ := ho
    simp only [List.mem_cons, List.not_mem_nil, or_false] at hol
    have hc := clamp0to127_le (Int.ofNat d1 + k)
    rcases hol with rfl | rfl | rfl <;> omega

/-- One step of the modelled processor preserves well-formedness of
the state and never outputs the filtered real-time bytes. -/
theorem processByte_preserves_good (t : TransformPolicy) (st : MidiState) (b : Nat)
    (h : GoodMidiState st) :
    GoodMidiState (processByte t st b).1 ∧
    ∀ o ∈ (processByte t st b).2.2, o ≠ 0xFE ∧ o ≠ 0xFC := by
  by_cases hrt : b = 0xFE ∨ b = 0xFC
  · rw [show processByte t st b = (st, [], []) by simp [processByte, hrt]]
    exact ⟨h, by simp⟩
  · by_cases hstat : 0x80 ≤ b
    · by_cases hnote : b ≤ 0x9F
      · rw [show processByte t st b =
            ({ parser_state := ParserState.CollectingChannelMessage b none,
               running_status := some b }, [], []) by
          simp [processByte, hrt, hstat, hnote]]
        constructor
        · constructor
          · intro s d hsd
            simp only [MidiState.parser_state] at hsd
            cases hsd
            exact ⟨⟨hstat, hnote⟩, by intro x hx; cases hx⟩
          · intro rs hrs
            simp only [MidiState.running_status, Option.some.injEq] at hrs
            subst hrs
            exact ⟨hstat, hnote⟩
        · simp
      · rw [show processByte t st b =
            ({ st with parser_state := ParserState.Idle }, [], [b]) by
          simp [processByte, hrt, hstat, hnote]]
        constructor
        · constructor
          · intro s d hsd
            simp only [MidiState.parser_state] at hsd
            cases hsd
          · intro rs hrs
            exact h.2 rs hrs
        · intro o ho
          simp only [List.mem_cons, List.not_mem_nil, or_false] at ho
          subst ho
          push_neg at hrt
          exact hrt
    · have hdata : ¬ (0x80 ≤ b) := hstat
      cases hps : st.parser_state with
      | CollectingChannelMessage s d =>
        cases d with
        | none =>
          rw [show processByte t st b =
              ({ st with parser_state :=
                  ParserState.CollectingChannelMessage s (some b) }, [], []) by
            simp [processByte, hrt, hstat, hps]]
          refine ⟨⟨?_, fun rs hrs => h.2 rs hrs⟩, by simp⟩
          intro s2 d2 hsd
          simp only [MidiState.parser_state] at hsd
          cases hsd
          refine ⟨(h.1 s none hps).1, ?_⟩
          intro x hx
          cases hx
          omega
        | some d1 =>
          rw [show processByte t st b =
              ({ st with parser_state := ParserState.Idle }, [(s, d1, b)],
                applyTransform t s d1 b) by
            simp [processByte, hrt, hstat, hps]]
          constructor
          · refine ⟨?_, fun rs hrs => h.2 rs hrs⟩
            intro s2 d2 hsd
            simp only [MidiState.parser_state] at hsd
            cases hsd
          · intro o ho
            have hgood := h.1 s (some d1) hps
            exact applyTransform_not_realtime t s d1 b o hgood.1.2
              (hgood.2 d1 rfl) (by omega) ho
      | Idle =>
        cases hrs : st.running_status with
        | some rs =>
          rw [show processByte t st b =
              ({ st with parser_state :=
                  ParserState.CollectingChannelMessage rs (some b) }, [], []) by
            simp [processByte, hrt, hstat, hps, hrs]]
          refine ⟨⟨?_, fun rs2 hrs2 => h.2 rs2 hrs2⟩, by simp⟩
          intro s2 d2 hsd
          simp only [MidiState.parser_state] at hsd
          cases hsd
          refine ⟨h.2 rs hrs, ?_⟩
          intro x hx
          cases hx
          omega
        | none =>
          rw [show processByte t st b = (st, [], [b]) by
            simp [processByte, hrt, hstat, hps, hrs]]
          refine ⟨h, ?_⟩
          intro o ho
          simp only [List.mem_cons, List.not_mem_nil, or_false] at ho
          subst ho
          omega

/-- Streams processed from a well-formed state never output the
filtered real-time bytes. -/
theorem processBytes_no_realtime (t : TransformPolicy) :
    ∀ (bytes : List Nat) (st : MidiState), GoodMidiState st →
      ∀ o ∈ (processBytes t st bytes).2.2, o ≠ 0xFE ∧ o ≠ 0xFC := by
  intro bytes
  induction bytes with
  | nil =>
    intro st _ o ho
    simp [processBytes] at ho
  | cons b rest ih =>
    intro st h o ho
    simp only [processBytes, List.mem_append] at ho
    obtain ⟨hg, hout⟩ := processByte_preserves_good t st b h
    cases ho with
    | inl h1 => exact hout o h1
    | inr h2 => exact ih (processByte t st b).1 hg o h2

/-- The initial processor state is well-formed. -/
theorem initialMidiState_good : GoodMidiState initialMidiState := by
  constructor
  · intro s d hsd
    simp [initialMidiState] at hsd
  · intro rs hrs
    simp [initialMidiState] at hrs

/-- C5: the real-time bytes `0xFE` and `0xFC` leave the parser state
and running status of the modelled processor unchanged and produce no
output, and no byte stream processed from the initial state ever
forwards `0xFE` or `0xFC` to the output. -/
theorem realtime_bytes_never_forwarded :
    (∀ (t : TransformPolicy) (st : MidiState),
      processByte t st 0xFE = (st, [], []) ∧ processByte t st 0xFC = (st, [], [])) ∧
    (∀ (t : TransformPolicy) (bytes : List Nat),
      ((processBytes t initialMidiState bytes).2.2).all
        (fun o => !(o == 0xFE) && !(o == 0xFC)) = true) := by
  constructor
  · intro t st
    exact ⟨rfl, rfl⟩
  · intro t bytes
    rw [List.all_eq_true]
    intro o ho
    have h := processBytes_no_realtime t bytes initialMidiState initialMidiState_good o ho
    simp only [Bool.and_eq_true, Bool.not_eq_true', beq_eq_false_iff_ne]
    exact h

end MicroKlavier
